import Mathlib

/-!
Verification of the in-memory project-tree model of
`src/components/PlaygroundLayout.tsx` (react-native-playground-frontend).

The TypeScript component keeps the project as a recursive array of
`FileNode` values and manipulates it with pure helper functions
(`sanitizeFileTree`, `findFileByPath`, `updateFileContent`, `addToTree`,
`deleteFromTree`, `renameInTree`) plus a debounced persistence effect.
Each helper is translated below.  A JavaScript function that recurses
through `node.children` is split into a node-level and a forest-level
Lean definition so that the recursion is structural; the semantics is
unchanged.
-/

namespace Playground

/-- The `type` tag of a tree node: `'file' | 'folder'`. -/
inductive NodeType where
  | file
  | folder
deriving DecidableEq

/-- The `FileNode` shape used by `PlaygroundLayout.tsx` (imported there from
`FileExplorer`): `id`, `name`, `type`, `path`, optional `content`, optional
`children`.  The `extra` field models any additional enumerable properties a
node object may carry at runtime; JavaScript object spreads (`{...node}`)
preserve such properties, while `sanitizeFileTree` builds fresh objects
without them. -/
inductive FileNode where
  | mk (id name : String) (type : NodeType) (path : String)
      (content : Option String) (children : Option (List FileNode))
      (extra : List (String × String))

/-- Projection: `node.id`. -/
def FileNode.id : FileNode → String
  | .mk i _ _ _ _ _ _ => i

/-- Projection: `node.name`. -/
def FileNode.name : FileNode → String
  | .mk _ n _ _ _ _ _ => n

/-- Projection: `node.type`. -/
def FileNode.type : FileNode → NodeType
  | .mk _ _ t _ _ _ _ => t

/-- Projection: `node.path`. -/
def FileNode.path : FileNode → String
  | .mk _ _ _ p _ _ _ => p

/-- Projection: `node.content`. -/
def FileNode.content : FileNode → Option String
  | .mk _ _ _ _ c _ _ => c

/-- Projection: `node.children`. -/
def FileNode.children : FileNode → Option (List FileNode)
  | .mk _ _ _ _ _ ch _ => ch

/-- Projection: the extra runtime properties of a node. -/
def FileNode.extra : FileNode → List (String × String)
  | .mk _ _ _ _ _ _ e => e

/-- The JavaScript spread `{...node, content: c}`. -/
def FileNode.withContent : FileNode → Option String → FileNode
  | .mk i n t p _ ch e, c => .mk i n t p c ch e

/-- The JavaScript spread `{...node, children: ch}`. -/
def FileNode.withChildren : FileNode → Option (List FileNode) → FileNode
  | .mk i n t p c _ e, ch => .mk i n t p c ch e

/-- The JavaScript spread `{...node, name: nm, path: pa}` used by rename. -/
def FileNode.withNamePath : FileNode → String → String → FileNode
  | .mk i _ t _ c ch e, nm, pa => .mk i nm t pa c ch e

mutual

/-- Boolean equality on nodes (component-wise). -/
def beqNode : FileNode → FileNode → Bool
  | .mk i n t p c ch e, .mk i' n' t' p' c' ch' e' =>
    i == i' && n == n' && t == t' && p == p' && c == c' && beqOptForest ch ch' && e == e'

/-- Boolean equality on optional child lists. -/
def beqOptForest : Option (List FileNode) → Option (List FileNode) → Bool
  | none, none => true
  | some l, some l' => beqForest l l'
  | _, _ => false

/-- Boolean equality on node lists. -/
def beqForest : List FileNode → List FileNode → Bool
  | [], [] => true
  | a :: as, b :: bs => beqNode a b && beqForest as bs
  | _, _ => false

end

mutual

theorem beqNode_eq : ∀ a b, beqNode a b = true ↔ a = b
  | .mk i n t p c ch e, .mk i' n' t' p' c' ch' e' => by
    simp only [beqNode, Bool.and_eq_true, beq_iff_eq, FileNode.mk.injEq]
    constructor
    · rintro ⟨⟨⟨⟨⟨⟨h1, h2⟩, h3⟩, h4⟩, h5⟩, h6⟩, h7⟩
      exact ⟨h1, h2, h3, h4, h5, (beqOptForest_eq ch ch').mp h6, h7⟩
    · rintro ⟨h1, h2, h3, h4, h5, h6, h7⟩
      exact ⟨⟨⟨⟨⟨⟨h1, h2⟩, h3⟩, h4⟩, h5⟩, (beqOptForest_eq ch ch').mpr h6⟩, h7⟩

theorem beqOptForest_eq : ∀ a b, beqOptForest a b = true ↔ a = b
  | none, none => by simp [beqOptForest]
  | none, some _ => by simp [beqOptForest]
  | some _, none => by simp [beqOptForest]
  | some l, some l' => by
    simp only [beqOptForest, Option.some.injEq]
    exact beqForest_eq l l'

theorem beqForest_eq : ∀ a b, beqForest a b = true ↔ a = b
  | [], [] => by simp [beqForest]
  | [], _ :: _ => by simp [beqForest]
  | _ :: _, [] => by simp [beqForest]
  | a :: as, b :: bs => by
    simp only [beqForest, Bool.and_eq_true, List.cons.injEq]
    exact and_congr (beqNode_eq a b) (beqForest_eq as bs)

end

instance : DecidableEq FileNode := fun a b =>
  decidable_of_iff (beqNode a b = true) (beqNode_eq a b)

/-- Rebuilding a node from its own fields gives the node back. -/
theorem FileNode.eta (n : FileNode) :
    FileNode.mk n.id n.name n.type n.path n.content n.children n.extra = n := by
  cases n
  rfl

/-- Restoring a node's own children is the identity:
`{...node, children: node.children} = node`. -/
theorem FileNode.withChildren_self (n : FileNode) :
    n.withChildren n.children = n := by
  cases n
  rfl

mutual

/-- `sanitizeFileTree` from `PlaygroundLayout.tsx`: builds, for every node, a
fresh object with only `{id, name, type, path}` plus `content` (defaulted to
`""` by `node.content ?? ''`) for files, or recursively sanitized `children`
(defaulted to `[]` by `node.children ? sanitizeFileTree(node.children) : []`)
for folders. -/
def sanitizeFileTree : List FileNode → List FileNode
  | [] => []
  | n :: rest => sanitizeNode n :: sanitizeFileTree rest

/-- Per-node body of `sanitizeFileTree` (the function passed to `nodes.map`). -/
def sanitizeNode : FileNode → FileNode
  | .mk i nm t p co ch _ =>
    match t with
    | .file => .mk i nm t p (some (co.getD "")) none []
    | .folder => .mk i nm t p none (some (sanitizeChildren ch)) []

/-- The ternary `node.children ? sanitizeFileTree(node.children) : []`
(an empty array is truthy in JavaScript, and sanitizing it yields `[]`). -/
def sanitizeChildren : Option (List FileNode) → List FileNode
  | none => []
  | some l => sanitizeFileTree l

end

mutual

/-- `findFileByPath` from `PlaygroundLayout.tsx` (the helper defined inside the
reconciliation effect and inside `handleFileSelect`): depth-first search that
returns the first node with the target `path` whose `type` is `'file'`,
descending into `children` when present. -/
def findFileByPath : List FileNode → String → Option FileNode
  | [], _ => none
  | n :: rest, target =>
    match findFileInNode n target with
    | some f => some f
    | none => findFileByPath rest target

/-- One loop iteration of `findFileByPath`: test the node itself, then its
children. -/
def findFileInNode : FileNode → String → Option FileNode
  | .mk i nm t p co ch e, target =>
    if p = target ∧ t = .file then some (.mk i nm t p co ch e)
    else findFileInChildren ch target

/-- The `if (node.children)` guard before the recursive call. -/
def findFileInChildren : Option (List FileNode) → String → Option FileNode
  | none, _ => none
  | some l, target => findFileByPath l target

end

/-- The reconciliation `useEffect` of `PlaygroundLayout.tsx` (runs after every
change of `files` or of the active document's path): when there is an active
document, look up the canonical node at its path with `findFileByPath`; if
found with different `content`, rebind the active document to it; in every
other case the effect performs no state update, so the active document is
returned unchanged. -/
def reconcile (files : List FileNode) (current : Option FileNode) : Option FileNode :=
  match current with
  | none => none
  | some cf =>
    match findFileByPath files cf.path with
    | some latest => if latest.content ≠ cf.content then some latest else some cf
    | none => some cf

mutual

/-- `updateFileContent` from `handleCodeChange` in `PlaygroundLayout.tsx`
(`target` is the closed-over `currentFile.path`, `newCode` the new content):
maps every node; a node whose `path` equals the target becomes
`{...node, content: newCode}` (its subtree is not visited), any other node
recurses into its children when present. -/
def updateFileContent (target newCode : String) : List FileNode → List FileNode
  | [] => []
  | n :: rest => updateNode target newCode n :: updateFileContent target newCode rest

/-- Per-node body of `updateFileContent`. -/
def updateNode (target newCode : String) : FileNode → FileNode
  | .mk i nm t p co ch e =>
    if p = target then .mk i nm t p (some newCode) ch e
    else .mk i nm t p co (updateChildren target newCode ch) e

/-- The `if (node.children)` guard of `updateFileContent`. -/
def updateChildren (target newCode : String) : Option (List FileNode) → Option (List FileNode)
  | none => none
  | some l => some (updateFileContent target newCode l)

end

mutual

/-- Recursive part of `addToTree` from `handleFileCreate` in
`PlaygroundLayout.tsx`, reached only when `parentPath ≠ "/"`: maps every node;
a folder whose `path` equals `parentPath` gets `newNode` appended to
`[...(node.children || []), newNode]`; any other node recurses into its
children when present. -/
def addToTreeGo (parentPath : String) (newNode : FileNode) : List FileNode → List FileNode
  | [] => []
  | n :: rest => addNode parentPath newNode n :: addToTreeGo parentPath newNode rest

/-- Per-node body of `addToTree`. -/
def addNode (parentPath : String) (newNode : FileNode) : FileNode → FileNode
  | .mk i nm t p co ch e =>
    if p = parentPath ∧ t = .folder then
      .mk i nm t p co (some (ch.getD [] ++ [newNode])) e
    else
      .mk i nm t p co (addChildren parentPath newNode ch) e

/-- The `if (node.children)` guard of `addToTree`. -/
def addChildren (parentPath : String) (newNode : FileNode) :
    Option (List FileNode) → Option (List FileNode)
  | none => none
  | some l => some (addToTreeGo parentPath newNode l)

end

/-- `addToTree` from `handleFileCreate` in `PlaygroundLayout.tsx`: when
`parentPath` is `"/"` the new node is appended to the top-level sequence and no
recursion happens; otherwise the tree is mapped by `addToTreeGo`. -/
def addToTree (parentPath : String) (newNode : FileNode) (nodes : List FileNode) :
    List FileNode :=
  if parentPath = "/" then nodes ++ [newNode]
  else addToTreeGo parentPath newNode nodes

mutual

/-- `deleteFromTree` from `handleFileDelete` in `PlaygroundLayout.tsx`:
`nodes.filter(node => node.path !== path).map(node => ({...node, children:
node.children ? deleteFromTree(node.children) : undefined}))`, written with the
filter and map fused element-wise (a node that survives the filter is mapped,
a node that matches is dropped together with its whole subtree). -/
def deleteFromTree (target : String) : List FileNode → List FileNode
  | [] => []
  | n :: rest =>
    if n.path = target then deleteFromTree target rest
    else deleteSurvivor target n :: deleteFromTree target rest

/-- The map step applied to a node that survived the filter. -/
def deleteSurvivor (target : String) : FileNode → FileNode
  | .mk i nm t p co ch e => .mk i nm t p co (deleteChildren target ch) e

/-- The ternary `node.children ? deleteFromTree(node.children) : undefined`. -/
def deleteChildren (target : String) : Option (List FileNode) → Option (List FileNode)
  | none => none
  | some l => some (deleteFromTree target l)

end

/-- JavaScript `str.split('/')` on the character sequence of a string: splits
at every `'/'`; the result is always non-empty. -/
def splitOnSlash : List Char → List (List Char)
  | [] => [[]]
  | c :: rest =>
    if c = '/' then [] :: splitOnSlash rest
    else match splitOnSlash rest with
      | s :: ss => (c :: s) :: ss
      | [] => [[c]]

/-- JavaScript `parts.join('/')`. -/
def joinSlash : List (List Char) → List Char
  | [] => []
  | [s] => s
  | s :: s' :: rest => s ++ '/' :: joinSlash (s' :: rest)

/-- The new-path computation of `handleFileRename` in `PlaygroundLayout.tsx`:
`const pathParts = path.split('/'); pathParts[pathParts.length - 1] = newName;
pathParts.join('/')`.  Since `split` always returns a non-empty array,
overwriting the last index equals dropping the last element and appending
`newName`. -/
def replaceLastSegment (path newName : String) : String :=
  ⟨joinSlash ((splitOnSlash path.data).dropLast ++ [newName.data])⟩

mutual

/-- `renameInTree` from `handleFileRename` in `PlaygroundLayout.tsx`: maps
every node; a node whose `path` equals the target path becomes
`{...node, name: newName, path: newPath}` with its subtree untouched and not
visited; any other node recurses into its children when present. -/
def renameInTree (path newName : String) : List FileNode → List FileNode
  | [] => []
  | n :: rest => renameNode path newName n :: renameInTree path newName rest

/-- Per-node body of `renameInTree`. -/
def renameNode (path newName : String) : FileNode → FileNode
  | .mk i nm t p co ch e =>
    if p = path then .mk i newName t (replaceLastSegment path newName) co ch e
    else .mk i nm t p co (renameChildren path newName ch) e

/-- The `if (node.children)` guard of `renameInTree`. -/
def renameChildren (path newName : String) :
    Option (List FileNode) → Option (List FileNode)
  | none => none
  | some l => some (renameInTree path newName l)

end

mutual

/-- Modelled from the spec: `findByPath(tree, path)` of §4.1, "depth-first
search; returns the unique match or none", with no restriction on the node's
type.  The source file only contains the file-restricted variant
`findFileByPath`; the generic lookup is the observation function the claims
state resolution with. -/
def findNodeByPath : List FileNode → String → Option FileNode
  | [], _ => none
  | n :: rest, target =>
    match findNodeInNode n target with
    | some f => some f
    | none => findNodeByPath rest target

/-- One step of `findNodeByPath`: test the node itself, then its children. -/
def findNodeInNode : FileNode → String → Option FileNode
  | .mk i nm t p co ch e, target =>
    if p = target then some (.mk i nm t p co ch e)
    else findNodeInChildren ch target

/-- Descent of `findNodeByPath` into an optional child list. -/
def findNodeInChildren : Option (List FileNode) → String → Option FileNode
  | none, _ => none
  | some l, target => findNodeByPath l target

end

mutual

/-- All `path` fields of a forest, in depth-first pre-order (node before its
children, children before later siblings). -/
def forestPaths : List FileNode → List String
  | [] => []
  | n :: rest => nodePaths n ++ forestPaths rest

/-- All `path` fields of the subtree rooted at one node. -/
def nodePaths : FileNode → List String
  | .mk _ _ _ p _ ch _ => p :: childrenPaths ch

/-- All `path` fields below an optional child list. -/
def childrenPaths : Option (List FileNode) → List String
  | none => []
  | some l => forestPaths l

end

mutual

/-- All nodes of a forest, in depth-first pre-order. -/
def nodesOfForest : List FileNode → List FileNode
  | [] => []
  | n :: rest => subtreeNodes n ++ nodesOfForest rest

/-- All nodes of the subtree rooted at one node. -/
def subtreeNodes : FileNode → List FileNode
  | .mk i nm t p co ch e => .mk i nm t p co ch e :: childrenNodes ch

/-- All nodes below an optional child list. -/
def childrenNodes : Option (List FileNode) → List FileNode
  | none => []
  | some l => nodesOfForest l

end

mutual

/-- The paths removed by `deleteFromTree target`: for every outermost node
whose `path` equals `target`, the paths of its entire subtree. -/
def droppedPaths (target : String) : List FileNode → List String
  | [] => []
  | n :: rest => droppedOfNode target n ++ droppedPaths target rest

/-- Contribution of a single node to `droppedPaths`. -/
def droppedOfNode (target : String) : FileNode → List String
  | .mk i nm t p co ch e =>
    if p = target then nodePaths (.mk i nm t p co ch e)
    else droppedOfChildren target ch

/-- Contribution of an optional child list to `droppedPaths`. -/
def droppedOfChildren (target : String) : Option (List FileNode) → List String
  | none => []
  | some l => droppedPaths target l

end

mutual

/-- Follows the spec's words (§4.1 `sanitize`, §8 "Round-trip sanitize"):
`specSanForest orig out` holds when `out` is, node for node, the persistable
form of `orig` — exactly the fields `{id, name, type, path}` plus `content`
for files (the original content, or `""` when absent) or `children` for
folders (recursively sanitized, or `[]` when absent), and no other field. -/
def specSanForest : List FileNode → List FileNode → Bool
  | [], [] => true
  | o :: os, s :: ss => specSanNode o s && specSanForest os ss
  | _, _ => false

/-- Per-node persistable-form relation, following the spec's words. -/
def specSanNode : FileNode → FileNode → Bool
  | .mk i nm t p co ch _, s =>
    s.id == i && s.name == nm && decide (s.type = t) && s.path == p && s.extra.isEmpty &&
    (match t with
     | .file => decide (s.content = some (co.getD "")) && decide (s.children = none)
     | .folder =>
        decide (s.content = none) &&
        (match s.children with
         | some sl => specSanChildren ch sl
         | none => false))

/-- Persistable form of an optional child list: absent children persist as
the empty sequence. -/
def specSanChildren : Option (List FileNode) → List FileNode → Bool
  | none, sl => sl.isEmpty
  | some ol, sl => specSanForest ol sl

end

/-- The observable state of the synchronization engine in
`PlaygroundLayout.tsx`: the pending debounce timer (deadline in milliseconds
together with the `files` snapshot captured by the effect closure), the remote
`PUT .../files` calls issued so far (time and sanitized payload), and the
`saveError` / `lastSaved` React states. -/
structure SyncState where
  pending : Option (Nat × List FileNode)
  writes : List (Nat × List FileNode)
  saveError : Option String
  lastSaved : Option Nat
deriving DecidableEq

/-- The initial synchronization state: no timer armed, nothing written. -/
def initSync : SyncState :=
  { pending := none, writes := [], saveError := none, lastSaved := none }

/-- One run of the debounced-persist `useEffect` of `PlaygroundLayout.tsx`,
triggered at time `t` by a change of `files` (or of the project id): the
cleanup of the previous run has cleared any outstanding timer
(`clearTimeout`); then `if (!projectId) return; if (!files || files.length ===
0) return;` skip without arming, otherwise `setTimeout(..., 1200)` arms a
fresh timer holding the current `files` snapshot. -/
def mutate (projectId : Option String) (t : Nat) (files : List FileNode)
    (st : SyncState) : SyncState :=
  if projectId.isNone then { st with pending := none }
  else if files = [] then { st with pending := none }
  else { st with pending := some (t + 1200, files) }

/-- A timer callback attempt at time `t`: it has an effect only when a timer
is pending and its deadline has been reached.  The callback sanitizes the
captured snapshot and issues one `PUT` (recorded in `writes`); `outcome =
none` is a `res.ok` response (`setLastSaved(new Date()); setSaveError(null)`),
`outcome = some msg` is a failed response or thrown error
(`setSaveError(msg)`, `lastSaved` untouched).  The timer is consumed either
way and nothing re-arms it. -/
def fire (t : Nat) (outcome : Option String) (st : SyncState) : SyncState :=
  match st.pending with
  | none => st
  | some (d, files) =>
    if d ≤ t then
      match outcome with
      | none =>
        { pending := none, writes := st.writes ++ [(t, sanitizeFileTree files)],
          saveError := none, lastSaved := some t }
      | some msg =>
        { pending := none, writes := st.writes ++ [(t, sanitizeFileTree files)],
          saveError := some msg, lastSaved := st.lastSaved }
    else st

/-- Run a list of timer-callback attempts (time and outcome), in order. -/
def runFires : List (Nat × Option String) → SyncState → SyncState
  | [], st => st
  | (t, o) :: rest, st => runFires rest (fire t o st)

/-- Run a list of mutation blocks: each block is one tree mutation
`(time, files)` followed by the timer-callback attempts that occur before the
next mutation. -/
def runBlocks (projectId : Option String) :
    List ((Nat × List FileNode) × List (Nat × Option String)) → SyncState → SyncState
  | [], st => st
  | ((t, files), fs) :: rest, st =>
      runBlocks projectId rest (runFires fs (mutate projectId t files st))

/-! ## Concrete sample trees used by witnesses and counterexamples -/

/-- A file node `/src/a.txt` with content `"x"`. -/
def demoFile : FileNode := .mk "2" "a.txt" .file "/src/a.txt" (some "x") none []

/-- A folder `/src` containing `demoFile`. -/
def demoSrc : FileNode := .mk "1" "src" .folder "/src" none (some [demoFile]) []

/-- A folder `/src` with an empty child list. -/
def demoEmptySrc : FileNode := .mk "4" "src" .folder "/src" none (some []) []

/-! ## Helper lemmas -/

mutual

theorem update_id_forest (P c : String) : ∀ (nodes : List FileNode),
    (∀ x ∈ nodesOfForest nodes, x.path ≠ P) → updateFileContent P c nodes = nodes
  | [], _ => rfl
  | n :: rest, h => by
    have hsplit : ∀ x ∈ subtreeNodes n, x.path ≠ P := by
      intro x hx
      exact h x (by simp only [nodesOfForest, List.mem_append]; exact Or.inl hx)
    have hrest : ∀ x ∈ nodesOfForest rest, x.path ≠ P := by
      intro x hx
      exact h x (by simp only [nodesOfForest, List.mem_append]; exact Or.inr hx)
    rw [updateFileContent, update_id_node P c n hsplit, update_id_forest P c rest hrest]

theorem update_id_node (P c : String) : ∀ (n : FileNode),
    (∀ x ∈ subtreeNodes n, x.path ≠ P) → updateNode P c n = n
  | .mk i nm t p co ch e, h => by
    have hp : p ≠ P := by
      have := h (.mk i nm t p co ch e) (by simp [subtreeNodes])
      simpa [FileNode.path] using this
    have hch : ∀ x ∈ childrenNodes ch, x.path ≠ P := by
      intro x hx
      exact h x (by simp only [subtreeNodes, List.mem_cons]; exact Or.inr hx)
    rw [updateNode, if_neg hp, update_id_children P c ch hch]

theorem update_id_children (P c : String) : ∀ (ch : Option (List FileNode)),
    (∀ x ∈ childrenNodes ch, x.path ≠ P) → updateChildren P c ch = ch
  | none, _ => rfl
  | some l, h => by
    rw [updateChildren, update_id_forest P c l (by simpa [childrenNodes] using h)]

end

mutual

theorem find_update_forest (P c : String) : ∀ (nodes : List FileNode),
    findNodeByPath (updateFileContent P c nodes) P
      = (findNodeByPath nodes P).map (fun x => x.withContent (some c))
  | [] => rfl
  | n :: rest => by
    have hn := find_update_node P c n
    rw [updateFileContent, findNodeByPath, findNodeByPath]
    cases h : findNodeInNode n P with
    | some f =>
      rw [h] at hn
      rw [hn]
      rfl
    | none =>
      rw [h] at hn
      rw [hn]
      simpa using find_update_forest P c rest

theorem find_update_node (P c : String) : ∀ (n : FileNode),
    findNodeInNode (updateNode P c n) P
      = (findNodeInNode n P).map (fun x => x.withContent (some c))
  | .mk i nm t p co ch e => by
    by_cases hp : p = P
    · simp [updateNode, findNodeInNode, hp, FileNode.withContent]
    · simp only [updateNode, if_neg hp, findNodeInNode]
      exact find_update_children P c ch

theorem find_update_children (P c : String) : ∀ (ch : Option (List FileNode)),
    findNodeInChildren (updateChildren P c ch) P
      = (findNodeInChildren ch P).map (fun x => x.withContent (some c))
  | none => rfl
  | some l => find_update_forest P c l

end

mutual

theorem add_id_forest (pp : String) (nn : FileNode) : ∀ (nodes : List FileNode),
    (∀ x ∈ nodesOfForest nodes, ¬(x.path = pp ∧ x.type = .folder)) →
    addToTreeGo pp nn nodes = nodes
  | [], _ => rfl
  | n :: rest, h => by
    have hsplit : ∀ x ∈ subtreeNodes n, ¬(x.path = pp ∧ x.type = .folder) := by
      intro x hx
      exact h x (by simp only [nodesOfForest, List.mem_append]; exact Or.inl hx)
    have hrest : ∀ x ∈ nodesOfForest rest, ¬(x.path = pp ∧ x.type = .folder) := by
      intro x hx
      exact h x (by simp only [nodesOfForest, List.mem_append]; exact Or.inr hx)
    rw [addToTreeGo, add_id_node pp nn n hsplit, add_id_forest pp nn rest hrest]

theorem add_id_node (pp : String) (nn : FileNode) : ∀ (n : FileNode),
    (∀ x ∈ subtreeNodes n, ¬(x.path = pp ∧ x.type = .folder)) →
    addNode pp nn n = n
  | .mk i nm t p co ch e, h => by
    have hp : ¬(p = pp ∧ t = .folder) := by
      have := h (.mk i nm t p co ch e) (by simp [subtreeNodes])
      simpa [FileNode.path, FileNode.type] using this
    have hch : ∀ x ∈ childrenNodes ch, ¬(x.path = pp ∧ x.type = .folder) := by
      intro x hx
      exact h x (by simp only [subtreeNodes, List.mem_cons]; exact Or.inr hx)
    rw [addNode, if_neg hp, add_id_children pp nn ch hch]

theorem add_id_children (pp : String) (nn : FileNode) : ∀ (ch : Option (List FileNode)),
    (∀ x ∈ childrenNodes ch, ¬(x.path = pp ∧ x.type = .folder)) →
    addChildren pp nn ch = ch
  | none, _ => rfl
  | some l, h => by
    rw [addChildren, add_id_forest pp nn l (by simpa [childrenNodes] using h)]

end

/-! ## Claims -/

/-- C1, as stated by the spec, is false on the code: when the active
document's path no longer resolves to a file node in the tree, the
reconciliation effect does not set the active document to none.  Concretely,
with an empty tree and active document `/src/a.txt`, the path does not resolve
yet reconciliation keeps the stale document. -/
theorem c1_counterexample :
    findFileByPath [] demoFile.path = none ∧
    reconcile [] (some demoFile) ≠ none := by
  decide

/-- C1 (amended): after a tree change, if the active document's path no longer
resolves to a file node in the canonical tree, the reconciliation pass leaves
the active document unchanged — it keeps the stale cached snapshot instead of
clearing it to none. -/
theorem c1_amended_reconcile_keeps_stale (files : List FileNode) (cf : FileNode)
    (h : findFileByPath files cf.path = none) :
    reconcile files (some cf) = some cf := by
  simp [reconcile, h]

/-- Witness for the amended C1 at a concrete input. -/
theorem c1_witness : reconcile [] (some demoFile) = some demoFile :=
  c1_amended_reconcile_keeps_stale [] demoFile (by decide)

/-- C2, as stated by the spec, is false on the code: `updateFileContent`
matches nodes by `path` alone and never checks `type === 'file'`.  A folder at
the target path receives the new `content` field, so the operation is not a
no-op there.  Concretely, updating `"/src"` on a tree whose only node is the
folder `/src` changes the tree, storing the content on the folder. -/
theorem c2_counterexample :
    demoEmptySrc.type = .folder ∧
    findFileByPath [demoEmptySrc] "/src" = none ∧
    updateFileContent "/src" "y" [demoEmptySrc] ≠ [demoEmptySrc] ∧
    updateFileContent "/src" "y" [demoEmptySrc]
      = [demoEmptySrc.withContent (some "y")] := by
  decide

/-- C2 (amended): `updateContent(tree, path, newContent)` replaces `content`
on every node whose `path` equals `path`, regardless of its type — a folder at
that path also receives the content; the operation is a no-op exactly when no
node at all carries that path.  First conjunct: when no node has the path, the
tree is returned unchanged.  Second conjunct: the node found at the path after
the update is the node found before it with only `content` replaced. -/
theorem c2_amended_update_by_path (tree : List FileNode) (P c : String) :
    ((∀ x ∈ nodesOfForest tree, x.path ≠ P) → updateFileContent P c tree = tree) ∧
    findNodeByPath (updateFileContent P c tree) P
      = (findNodeByPath tree P).map (fun x => x.withContent (some c)) :=
  ⟨update_id_forest P c tree, find_update_forest P c tree⟩

/-- Witness for the amended C2 at a concrete input. -/
theorem c2_witness : updateFileContent "/zz" "y" [demoEmptySrc] = [demoEmptySrc] :=
  (c2_amended_update_by_path [demoEmptySrc] "/zz" "y").1 (by decide)

/-- C7: `insert` (`addToTree`) with a `parentPath` that is not `"/"` and does
not resolve to an existing folder anywhere in the tree returns the tree
unchanged (deep structural equality) — a silent no-op, not an error.  This
covers both an absent path and a path carried only by file nodes. -/
theorem c7_insert_noop (tree : List FileNode) (pp : String) (nn : FileNode)
    (h1 : pp ≠ "/")
    (h2 : ∀ x ∈ nodesOfForest tree, ¬(x.path = pp ∧ x.type = .folder)) :
    addToTree pp nn tree = tree := by
  rw [addToTree, if_neg h1]
  exact add_id_forest pp nn tree h2

/-- Witness for C7 at a concrete input: inserting under the non-existent
parent `/nope` leaves the tree untouched. -/
theorem c7_witness : addToTree "/nope" demoFile [demoSrc] = [demoSrc] :=
  c7_insert_noop [demoSrc] "/nope" demoFile (by decide) (by decide)

mutual

theorem san_shape_forest : ∀ (nodes : List FileNode),
    specSanForest nodes (sanitizeFileTree nodes) = true
  | [] => rfl
  | n :: rest => by
    rw [sanitizeFileTree, specSanForest, san_shape_node n, san_shape_forest rest]
    rfl

theorem san_shape_node : ∀ (n : FileNode), specSanNode n (sanitizeNode n) = true
  | .mk i nm t p co ch e => by
    cases t with
    | file =>
      simp [sanitizeNode, specSanNode, FileNode.id, FileNode.name, FileNode.type,
        FileNode.path, FileNode.content, FileNode.children, FileNode.extra]
    | folder =>
      simp only [sanitizeNode, specSanNode, FileNode.id, FileNode.name, FileNode.type,
        FileNode.path, FileNode.content, FileNode.children, FileNode.extra]
      simp [san_shape_children ch]

theorem san_shape_children : ∀ (ch : Option (List FileNode)),
    specSanChildren ch (sanitizeChildren ch) = true
  | none => rfl
  | some l => by
    rw [sanitizeChildren, specSanChildren]
    exact san_shape_forest l

end

/-- C6: every node of `sanitizeFileTree tree` carries exactly the persistable
fields — `id`, `name`, `type`, `path` preserved, plus `content` for file
nodes (the original content, or `""` when absent) or recursively sanitized
`children` for folder nodes (or `[]` when absent) — and no extra runtime
property survives.  `specSanForest` spells out this field-by-field shape in
the spec's words. -/
theorem c6_sanitize_shape (nodes : List FileNode) :
    specSanForest nodes (sanitizeFileTree nodes) = true :=
  san_shape_forest nodes

/-- C10: with a project identifier bound (or not), a tree change to an empty
file tree never arms the debounce timer — the effect clears the outstanding
timer and returns before `setTimeout` — so no remote write can result from an
empty tree: the write log is unchanged and any later timer callback finds no
pending timer and does nothing. -/
theorem c10_empty_tree_guard (pid : Option String) (t : Nat) (st : SyncState) :
    (mutate pid t [] st).pending = none ∧
    (mutate pid t [] st).writes = st.writes ∧
    ∀ t' o, fire t' o (mutate pid t [] st) = mutate pid t [] st := by
  have hm : mutate pid t [] st = { st with pending := none } := by
    simp [mutate]
  rw [hm]
  refine ⟨rfl, rfl, ?_⟩
  intro t' o
  simp [fire]

/-- A synchronization state with a pending timer and a stale error, used by
witnesses. -/
def demoSt : SyncState :=
  { pending := some (1200, [demoFile]), writes := [], saveError := some "old",
    lastSaved := none }

/-- C9: observable save-state transitions of the synchronization engine.  For
a pending timer whose deadline has arrived: a successful write clears any
prior error and records the completion timestamp; a failed write records the
failure message, leaves the last-saved timestamp untouched, and arms no new
timer — a later timer callback is a no-op (no automatic retry) — while the
next qualifying tree change re-arms a fresh timer. -/
theorem c9_save_state (st : SyncState) (d t : Nat) (files : List FileNode)
    (msg : String) (pid : Option String) (v : String) (t2 : Nat)
    (f2 : List FileNode)
    (hp : st.pending = some (d, files)) (hd : d ≤ t)
    (hpid : pid = some v) (hf2 : f2 ≠ []) :
    ((fire t none st).saveError = none ∧ (fire t none st).lastSaved = some t) ∧
    ((fire t (some msg) st).saveError = some msg ∧
      (fire t (some msg) st).lastSaved = st.lastSaved ∧
      (fire t (some msg) st).pending = none) ∧
    (∀ t' o, fire t' o (fire t (some msg) st) = fire t (some msg) st) ∧
    (mutate pid t2 f2 (fire t (some msg) st)).pending = some (t2 + 1200, f2) := by
  have hsucc : fire t none st =
      { pending := none, writes := st.writes ++ [(t, sanitizeFileTree files)],
        saveError := none, lastSaved := some t } := by
    simp [fire, hp, hd]
  have hfail : fire t (some msg) st =
      { pending := none, writes := st.writes ++ [(t, sanitizeFileTree files)],
        saveError := some msg, lastSaved := st.lastSaved } := by
    simp [fire, hp, hd]
  subst hpid
  refine ⟨⟨?_, ?_⟩, ⟨?_, ?_, ?_⟩, ?_, ?_⟩
  · rw [hsucc]
  · rw [hsucc]
  · rw [hfail]
  · rw [hfail]
  · rw [hfail]
  · intro t' o
    rw [hfail]
    simp [fire]
  · rw [hfail]
    simp [mutate, hf2]

/-- Witness for C9 at a concrete input. -/
theorem c9_witness :
    (fire 1200 none demoSt).saveError = none ∧
    (fire 1200 none demoSt).lastSaved = some 1200 :=
  (c9_save_state demoSt 1200 1200 [demoFile] "boom" (some "p") "p" 2000 [demoFile]
    rfl (by decide) rfl (by decide)).1

theorem runFires_noop (d : Nat) (files : List FileNode) :
    ∀ (fs : List (Nat × Option String)) (st : SyncState),
    st.pending = some (d, files) → (∀ x ∈ fs, x.1 < d) → runFires fs st = st
  | [], _, _, _ => rfl
  | (t, o) :: rest, st, hp, hlt => by
    have ht : t < d := hlt (t, o) (by simp)
    have hstep : fire t o st = st := by
      rw [fire, hp]
      simp [Nat.not_le.mpr ht]
    rw [runFires, hstep]
    exact runFires_noop d files rest st hp (fun x hx => hlt x (by simp [hx]))

theorem runBlocks_append_last (v : String)
    (lastT : Nat) (lastF : List FileNode) (lfs : List (Nat × Option String)) :
    ∀ (prev : List ((Nat × List FileNode) × List (Nat × Option String)))
      (st : SyncState),
    (∀ b ∈ prev ++ [((lastT, lastF), lfs)], b.1.2 ≠ []) →
    (∀ b ∈ prev ++ [((lastT, lastF), lfs)], ∀ x ∈ b.2, x.1 < b.1.1 + 1200) →
    (runBlocks (some v) (prev ++ [((lastT, lastF), lfs)]) st).writes = st.writes ∧
    (runBlocks (some v) (prev ++ [((lastT, lastF), lfs)]) st).pending
      = some (lastT + 1200, lastF)
  | [], st, hfiles, hstale => by
    have hlf : lastF ≠ [] := hfiles ((lastT, lastF), lfs) (by simp)
    have hm : mutate (some v) lastT lastF st =
        { st with pending := some (lastT + 1200, lastF) } := by
      simp [mutate, hlf]
    have hfs : runFires lfs { st with pending := some (lastT + 1200, lastF) }
        = { st with pending := some (lastT + 1200, lastF) } := by
      refine runFires_noop (lastT + 1200) lastF lfs _ rfl ?_
      intro x hx
      exact hstale ((lastT, lastF), lfs) (by simp) x hx
    rw [List.nil_append, runBlocks, hm, hfs, runBlocks]
    exact ⟨rfl, rfl⟩
  | ⟨⟨bt, bf⟩, bfs⟩ :: prev, st, hfiles, hstale => by
    have hbf : bf ≠ [] := hfiles ⟨⟨bt, bf⟩, bfs⟩ (by simp)
    have hm : mutate (some v) bt bf st =
        { st with pending := some (bt + 1200, bf) } := by
      simp [mutate, hbf]
    have hfs : runFires bfs { st with pending := some (bt + 1200, bf) }
        = { st with pending := some (bt + 1200, bf) } := by
      refine runFires_noop (bt + 1200) bf bfs _ rfl ?_
      intro x hx
      exact hstale ⟨⟨bt, bf⟩, bfs⟩ (by simp) x hx
    rw [List.cons_append, runBlocks, hm, hfs]
    exact runBlocks_append_last v lastT lastF lfs prev _
      (fun x hx => hfiles x (by simp [hx]))
      (fun x hx => hstale x (by simp [hx]))

/-- C4: trailing-edge debounce collapse.  For any run that starts from the
initial synchronization state with a bound project identifier and consists of
N ≥ 1 tree mutations to non-empty trees — each mutation arriving strictly
within the 1200 ms quiet period after the previous one, and every timer
callback of a superseded (cancelled) timer occurring before the currently
armed deadline — each mutation replaces the pending timer with a fresh one,
and when the final timer fires at its deadline exactly one remote write has
been issued, whose payload is the sanitized tree captured at the last
mutation. -/
theorem c4_debounce_collapse (v : String)
    (prev : List ((Nat × List FileNode) × List (Nat × Option String)))
    (lastT : Nat) (lastF : List FileNode) (lfs : List (Nat × Option String))
    (outcome : Option String)
    (hfiles : ∀ b ∈ prev ++ [((lastT, lastF), lfs)], b.1.2 ≠ [])
    (hstale : ∀ b ∈ prev ++ [((lastT, lastF), lfs)], ∀ x ∈ b.2, x.1 < b.1.1 + 1200)
    (hchain : List.Chain'
      (fun b b' : (Nat × List FileNode) × List (Nat × Option String) =>
        b'.1.1 < b.1.1 + 1200)
      (prev ++ [((lastT, lastF), lfs)])) :
    (runBlocks (some v) (prev ++ [((lastT, lastF), lfs)]) initSync).pending
      = some (lastT + 1200, lastF) ∧
    (fire (lastT + 1200) outcome
        (runBlocks (some v) (prev ++ [((lastT, lastF), lfs)]) initSync)).writes
      = [(lastT + 1200, sanitizeFileTree lastF)] := by
  obtain ⟨hw, hpend⟩ := runBlocks_append_last v lastT lastF lfs prev initSync hfiles hstale
  refine ⟨hpend, ?_⟩
  have hw' : (runBlocks (some v) (prev ++ [((lastT, lastF), lfs)]) initSync).writes
      = [] := by
    rw [hw]
    rfl
  rw [fire, hpend]
  cases outcome <;> simp [hw']

/-- Witness for C4 at a concrete run: two rapid mutations (at 0 ms and
1000 ms) and one stale callback attempt at 1200 ms collapse into the single
write of the last tree at 2200 ms. -/
theorem c4_witness :
    (fire (1000 + 1200) none
        (runBlocks (some "p")
          ([((0, [demoFile]), [])] ++ [((1000, [demoSrc]), [(1200, some "late")])])
          initSync)).writes
      = [(1000 + 1200, sanitizeFileTree [demoSrc])] :=
  (c4_debounce_collapse "p" [((0, [demoFile]), [])] 1000 [demoSrc]
    [(1200, some "late")] none (by decide) (by decide)
    (by simp [List.chain'_cons, List.chain'_singleton])).2

/-- C8: `updateContent` is pure.  Given a file node `f` holding content `c`
at path `P`, updating `P` to `c'` yields a tree whose node at `P` is exactly
`f` with only `content` replaced by `c'` — `id`, `name`, `type`, `path`,
`children` all preserved — while the input tree, being a value, still resolves
`P` to the node holding `c` (the input is never mutated; reference identity of
untouched branches is not expressible in a value semantics and is subsumed by
equality). -/
theorem c8_update_pure (tree : List FileNode) (P c' c : String) (f : FileNode)
    (hf : findNodeByPath tree P = some f) (hty : f.type = .file)
    (hc : f.content = some c) :
    findNodeByPath (updateFileContent P c' tree) P = some (f.withContent (some c')) ∧
    (f.withContent (some c')).content = some c' ∧
    (f.withContent (some c')).id = f.id ∧
    (f.withContent (some c')).name = f.name ∧
    (f.withContent (some c')).type = f.type ∧
    (f.withContent (some c')).path = f.path ∧
    (f.withContent (some c')).children = f.children ∧
    (f.withContent (some c')).extra = f.extra ∧
    findNodeByPath tree P = some f ∧ f.content = some c := by
  refine ⟨?_, ?_, ?_, ?_, ?_, ?_, ?_, ?_, hf, hc⟩
  · rw [find_update_forest P c' tree, hf]
    rfl
  all_goals cases f
  all_goals simp [FileNode.withContent, FileNode.content, FileNode.id, FileNode.name,
    FileNode.type, FileNode.path, FileNode.children, FileNode.extra]

/-- Witness for C8 at the spec's own scenario (§8): updating `/src/a.txt`
from `"x"` to `"y"`. -/
theorem c8_witness :
    findNodeByPath (updateFileContent "/src/a.txt" "y" [demoSrc]) "/src/a.txt"
      = some (demoFile.withContent (some "y")) :=
  (c8_update_pure [demoSrc] "/src/a.txt" "y" "x" demoFile (by decide) (by decide)
    (by decide)).1

mutual

theorem paths_sub_forest (dp : String) : ∀ (l : List FileNode) (f : FileNode),
    f ∈ nodesOfForest l → dp ∈ nodePaths f → dp ∈ forestPaths l
  | n :: rest, f, hmem, hdp => by
    rw [nodesOfForest, List.mem_append] at hmem
    rw [forestPaths, List.mem_append]
    cases hmem with
    | inl h => exact Or.inl (paths_sub_node dp n f h hdp)
    | inr h => exact Or.inr (paths_sub_forest dp rest f h hdp)

theorem paths_sub_node (dp : String) : ∀ (n f : FileNode),
    f ∈ subtreeNodes n → dp ∈ nodePaths f → dp ∈ nodePaths n
  | .mk i nm t p co ch e, f, hmem, hdp => by
    rw [subtreeNodes, List.mem_cons] at hmem
    cases hmem with
    | inl h =>
      rw [h] at hdp
      exact hdp
    | inr h =>
      rw [nodePaths, List.mem_cons]
      exact Or.inr (paths_sub_children dp ch f h hdp)

theorem paths_sub_children (dp : String) : ∀ (ch : Option (List FileNode)) (f : FileNode),
    f ∈ childrenNodes ch → dp ∈ nodePaths f → dp ∈ childrenPaths ch
  | some l, f, hmem, hdp => paths_sub_forest dp l f (by simpa [childrenNodes] using hmem) hdp

end

mutual

theorem mem_dropped_forest (P : String) : ∀ (nodes : List FileNode) (f : FileNode),
    f ∈ nodesOfForest nodes → f.path = P →
    ∀ dp ∈ nodePaths f, dp ∈ droppedPaths P nodes
  | n :: rest, f, hmem, hP, dp, hdp => by
    rw [nodesOfForest, List.mem_append] at hmem
    rw [droppedPaths, List.mem_append]
    cases hmem with
    | inl h => exact Or.inl (mem_dropped_node P n f h hP dp hdp)
    | inr h => exact Or.inr (mem_dropped_forest P rest f h hP dp hdp)

theorem mem_dropped_node (P : String) : ∀ (n f : FileNode),
    f ∈ subtreeNodes n → f.path = P →
    ∀ dp ∈ nodePaths f, dp ∈ droppedOfNode P n
  | .mk i nm t p co ch e, f, hmem, hP, dp, hdp => by
    rw [droppedOfNode]
    by_cases hp : p = P
    · rw [if_pos hp]
      exact paths_sub_node dp (.mk i nm t p co ch e) f hmem hdp
    · rw [if_neg hp]
      rw [subtreeNodes, List.mem_cons] at hmem
      cases hmem with
      | inl h =>
        exfalso
        apply hp
        rw [← hP, h, FileNode.path]
      | inr h => exact mem_dropped_children P ch f h hP dp hdp

theorem mem_dropped_children (P : String) : ∀ (ch : Option (List FileNode)) (f : FileNode),
    f ∈ childrenNodes ch → f.path = P →
    ∀ dp ∈ nodePaths f, dp ∈ droppedOfChildren P ch
  | some l, f, hmem, hP, dp, hdp =>
    mem_dropped_forest P l f (by simpa [childrenNodes] using hmem) hP dp hdp

end

mutual

theorem find_mem_forest : ∀ (nodes : List FileNode) (p : String) (f : FileNode),
    findNodeByPath nodes p = some f → f ∈ nodesOfForest nodes ∧ f.path = p
  | n :: rest, p, f, h => by
    rw [findNodeByPath] at h
    rw [nodesOfForest, List.mem_append]
    cases hn : findNodeInNode n p with
    | some g =>
      rw [hn] at h
      cases h
      obtain ⟨h1, h2⟩ := find_mem_node n p f hn
      exact ⟨Or.inl h1, h2⟩
    | none =>
      rw [hn] at h
      obtain ⟨h1, h2⟩ := find_mem_forest rest p f h
      exact ⟨Or.inr h1, h2⟩

theorem find_mem_node : ∀ (n : FileNode) (p : String) (f : FileNode),
    findNodeInNode n p = some f → f ∈ subtreeNodes n ∧ f.path = p
  | .mk i nm t pa co ch e, p, f, h => by
    rw [findNodeInNode] at h
    rw [subtreeNodes, List.mem_cons]
    by_cases hp : pa = p
    · rw [if_pos hp] at h
      cases h
      exact ⟨Or.inl rfl, by rw [FileNode.path, hp]⟩
    · rw [if_neg hp] at h
      obtain ⟨h1, h2⟩ := find_mem_children ch p f h
      exact ⟨Or.inr h1, h2⟩

theorem find_mem_children : ∀ (ch : Option (List FileNode)) (p : String) (f : FileNode),
    findNodeInChildren ch p = some f → f ∈ childrenNodes ch ∧ f.path = p
  | some l, p, f, h => by
    rw [childrenNodes]
    exact find_mem_forest l p f h

end

mutual

theorem find_none_forest : ∀ (nodes : List FileNode) (p : String),
    findNodeByPath nodes p = none ↔ p ∉ forestPaths nodes
  | [], p => by simp [findNodeByPath, forestPaths]
  | n :: rest, p => by
    rw [findNodeByPath, forestPaths]
    rw [List.mem_append, not_or]
    cases hn : findNodeInNode n p with
    | some g =>
      have : ¬ p ∉ nodePaths n := by
        intro hnot
        rw [← find_none_node n p] at hnot
        rw [hn] at hnot
        exact Option.some_ne_none g hnot
      simp [this]
    | none =>
      have hp : p ∉ nodePaths n := (find_none_node n p).mp hn
      simp [hp, find_none_forest rest p]

theorem find_none_node : ∀ (n : FileNode) (p : String),
    findNodeInNode n p = none ↔ p ∉ nodePaths n
  | .mk i nm t pa co ch e, p => by
    rw [findNodeInNode, nodePaths, List.mem_cons, not_or]
    by_cases hp : pa = p
    · simp [if_pos hp, hp]
    · rw [if_neg hp]
      have hne : ¬ p = pa := fun h => hp h.symm
      simp [hne, find_none_children ch p]

theorem find_none_children : ∀ (ch : Option (List FileNode)) (p : String),
    findNodeInChildren ch p = none ↔ p ∉ childrenPaths ch
  | none, p => by simp [findNodeInChildren, childrenPaths]
  | some l, p => by
    rw [findNodeInChildren, childrenPaths]
    exact find_none_forest l p

end

mutual

theorem delete_count_forest (P dp : String) : ∀ (nodes : List FileNode),
    List.count dp (forestPaths (deleteFromTree P nodes))
      + List.count dp (droppedPaths P nodes)
      = List.count dp (forestPaths nodes)
  | [] => rfl
  | .mk i nm t p co ch e :: rest => by
    simp only [deleteFromTree, droppedPaths, forestPaths, droppedOfNode, nodePaths,
      FileNode.path, FileNode.children]
    by_cases hp : p = P
    · rw [if_pos hp, if_pos hp]
      have := delete_count_forest P dp rest
      simp only [List.count_append, List.count_cons]
      omega
    · rw [if_neg hp, if_neg hp]
      simp only [forestPaths, deleteSurvivor, nodePaths, FileNode.path, FileNode.children,
        List.count_append, List.count_cons]
      have h1 := delete_count_children P dp ch
      have h2 := delete_count_forest P dp rest
      omega

theorem delete_count_children (P dp : String) : ∀ (ch : Option (List FileNode)),
    List.count dp (childrenPaths (deleteChildren P ch))
      + List.count dp (droppedOfChildren P ch)
      = List.count dp (childrenPaths ch)
  | none => rfl
  | some l => by
    rw [deleteChildren, childrenPaths, childrenPaths, droppedOfChildren]
    exact delete_count_forest P dp l

end

/-- C5: deletion cascade.  For a tree with pairwise distinct paths and a
folder node `f` at path `P`, after `deleteFromTree P` no path of the subtree
rooted at `f` — neither `P` itself nor any descendant path — resolves any
more: the whole subtree is structurally removed, not just the node. -/
theorem c5_delete_cascade (tree : List FileNode) (P : String) (f : FileNode)
    (hN : (forestPaths tree).Nodup)
    (hf : findNodeByPath tree P = some f) (hty : f.type = .folder) :
    ∀ dp ∈ nodePaths f, findNodeByPath (deleteFromTree P tree) dp = none := by
  intro dp hdp
  obtain ⟨hmem, hpath⟩ := find_mem_forest tree P f hf
  have hdrop : dp ∈ droppedPaths P tree := mem_dropped_forest P tree f hmem hpath dp hdp
  have hcount := delete_count_forest P dp tree
  have h1 : 0 < List.count dp (droppedPaths P tree) := List.count_pos_iff.mpr hdrop
  have h2 : List.count dp (forestPaths tree) ≤ 1 :=
    List.nodup_iff_count_le_one.mp hN dp
  have h3 : List.count dp (forestPaths (deleteFromTree P tree)) = 0 := by omega
  have h4 : dp ∉ forestPaths (deleteFromTree P tree) := by
    rw [← List.count_eq_zero]
    exact h3
  exact (find_none_forest (deleteFromTree P tree) dp).mpr h4

/-- Witness for C5 at a concrete input: deleting the folder `/src` makes both
`/src` and its descendant `/src/a.txt` unresolvable. -/
theorem c5_witness :
    findNodeByPath (deleteFromTree "/src" [demoSrc]) "/src/a.txt" = none :=
  c5_delete_cascade [demoSrc] "/src" demoSrc (by decide) (by decide) (by decide)
    "/src/a.txt" (by decide)

mutual

theorem rename_id_forest (P nn : String) : ∀ (nodes : List FileNode),
    P ∉ forestPaths nodes → renameInTree P nn nodes = nodes
  | [], _ => rfl
  | n :: rest, h => by
    have h1 : P ∉ nodePaths n := fun hx =>
      h (by rw [forestPaths]; exact List.mem_append.mpr (Or.inl hx))
    have h2 : P ∉ forestPaths rest := fun hx =>
      h (by rw [forestPaths]; exact List.mem_append.mpr (Or.inr hx))
    rw [renameInTree, rename_id_node P nn n h1, rename_id_forest P nn rest h2]

theorem rename_id_node (P nn : String) : ∀ (n : FileNode),
    P ∉ nodePaths n → renameNode P nn n = n
  | .mk i nm t p co ch e, h => by
    have hp : ¬ p = P := fun hpe =>
      h (by rw [nodePaths, hpe]; exact List.mem_cons_self _ _)
    have hch : P ∉ childrenPaths ch := fun hx =>
      h (by rw [nodePaths]; exact List.mem_cons_of_mem _ hx)
    rw [renameNode, if_neg hp, rename_id_children P nn ch hch]

theorem rename_id_children (P nn : String) : ∀ (ch : Option (List FileNode)),
    P ∉ childrenPaths ch → renameChildren P nn ch = ch
  | none, _ => rfl
  | some l, h => by
    rw [renameChildren, rename_id_forest P nn l (by simpa [childrenPaths] using h)]

end

mutual

theorem find_rename_forest (P nn : String) : ∀ (nodes : List FileNode) (f : FileNode),
    findNodeByPath nodes P = some f →
    replaceLastSegment P nn ∉ forestPaths nodes →
    replaceLastSegment P nn ≠ P →
    findNodeByPath (renameInTree P nn nodes) (replaceLastSegment P nn)
      = some (f.withNamePath nn (replaceLastSegment P nn))
  | n :: rest, f, hf, hfresh, hnp => by
    have hfresh1 : replaceLastSegment P nn ∉ nodePaths n := fun hx =>
      hfresh (by rw [forestPaths]; exact List.mem_append.mpr (Or.inl hx))
    have hfresh2 : replaceLastSegment P nn ∉ forestPaths rest := fun hx =>
      hfresh (by rw [forestPaths]; exact List.mem_append.mpr (Or.inr hx))
    rw [findNodeByPath] at hf
    rw [renameInTree, findNodeByPath]
    cases hn : findNodeInNode n P with
    | some g =>
      rw [hn] at hf
      have hgf : g = f := by injection hf
      rw [find_rename_node P nn n g hn hfresh1 hnp, hgf]
    | none =>
      rw [hn] at hf
      have hPn : P ∉ nodePaths n := (find_none_node n P).mp hn
      rw [rename_id_node P nn n hPn,
        (find_none_node n (replaceLastSegment P nn)).mpr hfresh1]
      exact find_rename_forest P nn rest f hf hfresh2 hnp

theorem find_rename_node (P nn : String) : ∀ (n f : FileNode),
    findNodeInNode n P = some f →
    replaceLastSegment P nn ∉ nodePaths n →
    replaceLastSegment P nn ≠ P →
    findNodeInNode (renameNode P nn n) (replaceLastSegment P nn)
      = some (f.withNamePath nn (replaceLastSegment P nn))
  | .mk i nm t p co ch e, f, hf, hfresh, hnp => by
    rw [findNodeInNode] at hf
    by_cases hp : p = P
    · rw [if_pos hp] at hf
      cases hf
      rw [renameNode, if_pos hp, findNodeInNode, if_pos rfl]
      rfl
    · rw [if_neg hp] at hf
      have hpnp : ¬ p = replaceLastSegment P nn := fun hE =>
        hfresh (by rw [nodePaths, hE]; exact List.mem_cons_self _ _)
      have hfreshch : replaceLastSegment P nn ∉ childrenPaths ch := fun hx =>
        hfresh (by rw [nodePaths]; exact List.mem_cons_of_mem _ hx)
      rw [renameNode, if_neg hp, findNodeInNode, if_neg hpnp]
      exact find_rename_children P nn ch f hf hfreshch hnp

theorem find_rename_children (P nn : String) : ∀ (ch : Option (List FileNode)) (f : FileNode),
    findNodeInChildren ch P = some f →
    replaceLastSegment P nn ∉ childrenPaths ch →
    replaceLastSegment P nn ≠ P →
    findNodeInChildren (renameChildren P nn ch) (replaceLastSegment P nn)
      = some (f.withNamePath nn (replaceLastSegment P nn))
  | some l, f, hf, hfresh, hnp => by
    rw [renameChildren, findNodeInChildren]
    exact find_rename_forest P nn l f hf (by simpa [childrenPaths] using hfresh) hnp

end

theorem map_keep_of_not_mem (np P : String) : ∀ (L : List String),
    P ∉ L → L.map (fun q => if q = P then np else q) = L
  | [], _ => rfl
  | a :: L, h => by
    have ha : ¬ a = P := fun hE => h (by rw [hE]; exact List.mem_cons_self _ _)
    rw [List.map_cons, if_neg ha,
      map_keep_of_not_mem np P L (fun hx => h (List.mem_cons_of_mem _ hx))]

mutual

theorem rename_paths_forest (P nn : String) : ∀ (nodes : List FileNode),
    List.count P (forestPaths nodes) ≤ 1 →
    forestPaths (renameInTree P nn nodes)
      = (forestPaths nodes).map
          (fun q => if q = P then replaceLastSegment P nn else q)
  | [], _ => rfl
  | n :: rest, h => by
    rw [forestPaths, List.count_append] at h
    rw [renameInTree, forestPaths, forestPaths, List.map_append,
      rename_paths_node P nn n (by omega), rename_paths_forest P nn rest (by omega)]

theorem rename_paths_node (P nn : String) : ∀ (n : FileNode),
    List.count P (nodePaths n) ≤ 1 →
    nodePaths (renameNode P nn n)
      = (nodePaths n).map (fun q => if q = P then replaceLastSegment P nn else q)
  | .mk i nm t p co ch e, h => by
    rw [nodePaths] at h
    by_cases hp : p = P
    · subst hp
      have hch : p ∉ childrenPaths ch := by
        rw [← List.count_eq_zero]
        simp only [List.count_cons, beq_self_eq_true, if_true] at h
        omega
      rw [renameNode, if_pos rfl, nodePaths, nodePaths, List.map_cons, if_pos rfl,
        map_keep_of_not_mem (replaceLastSegment p nn) p (childrenPaths ch) hch]
    · have hbeq : (p == P) = false := beq_eq_false_iff_ne.mpr hp
      have hch : List.count P (childrenPaths ch) ≤ 1 := by
        simp only [List.count_cons, hbeq, if_false] at h
        omega
      rw [renameNode, if_neg hp, nodePaths, nodePaths, List.map_cons, if_neg hp,
        rename_paths_children P nn ch hch]

theorem rename_paths_children (P nn : String) : ∀ (ch : Option (List FileNode)),
    List.count P (childrenPaths ch) ≤ 1 →
    childrenPaths (renameChildren P nn ch)
      = (childrenPaths ch).map (fun q => if q = P then replaceLastSegment P nn else q)
  | none, _ => rfl
  | some l, h => by
    rw [renameChildren, childrenPaths, childrenPaths]
    exact rename_paths_forest P nn l (by simpa [childrenPaths] using h)

end

theorem not_under_new_path (P np d : String)
    (hwf : (P ++ "/").data <+: d.data)
    (h1 : ¬ (np ++ "/").data <+: (P ++ "/").data)
    (h2 : ¬ (P ++ "/").data <+: (np ++ "/").data) :
    ¬ (np ++ "/").data <+: d.data := by
  intro hx
  rcases List.prefix_or_prefix_of_prefix hx hwf with h | h
  · exact h1 h
  · exact h2 h

/-- C3: renaming a folder is shallow.  For a tree with pairwise-distinct
occurrences of `P`, a folder `f` at `P` with children `l ≠ []`, a genuinely
new name (the new path is fresh, differs from `P`, and neither of new and old
path extends the other as a directory prefix), and well-formed descendants
(each descendant path extends `P ++ "/"`), `renameInTree` changes only the
folder's own `name` and `path` (final segment replaced): the renamed node
keeps `id`, `type`, `content` and — verbatim — its `children`, every other
path in the tree is unchanged (the path multiset is the pointwise image
replacing only `P`), and consequently no descendant path lies under the
folder's new path. -/
theorem c3_rename_shallow (tree : List FileNode) (P nn : String)
    (f : FileNode) (l : List FileNode)
    (hf : findNodeByPath tree P = some f)
    (hty : f.type = .folder)
    (hch : f.children = some l)
    (hne : l ≠ [])
    (hcount : List.count P (forestPaths tree) ≤ 1)
    (hfresh : replaceLastSegment P nn ∉ forestPaths tree)
    (hsep1 : ¬ ((replaceLastSegment P nn ++ "/").data <+: (P ++ "/").data))
    (hsep2 : ¬ ((P ++ "/").data <+: (replaceLastSegment P nn ++ "/").data))
    (hwf : ∀ d ∈ forestPaths l, (P ++ "/").data <+: d.data) :
    findNodeByPath (renameInTree P nn tree) (replaceLastSegment P nn)
      = some (f.withNamePath nn (replaceLastSegment P nn)) ∧
    (f.withNamePath nn (replaceLastSegment P nn)).children = some l ∧
    (f.withNamePath nn (replaceLastSegment P nn)).name = nn ∧
    (f.withNamePath nn (replaceLastSegment P nn)).path = replaceLastSegment P nn ∧
    (f.withNamePath nn (replaceLastSegment P nn)).id = f.id ∧
    (f.withNamePath nn (replaceLastSegment P nn)).type = f.type ∧
    (f.withNamePath nn (replaceLastSegment P nn)).content = f.content ∧
    forestPaths (renameInTree P nn tree)
      = (forestPaths tree).map
          (fun q => if q = P then replaceLastSegment P nn else q) ∧
    ∀ d ∈ forestPaths l, ¬ ((replaceLastSegment P nn ++ "/").data <+: d.data) := by
  have hnp : replaceLastSegment P nn ≠ P := by
    intro hE
    apply hsep2
    rw [hE]
  refine ⟨find_rename_forest P nn tree f hf hfresh hnp, ?_, ?_, ?_, ?_, ?_, ?_,
    rename_paths_forest P nn tree hcount, ?_⟩
  · cases f
    simp only [FileNode.withNamePath, FileNode.children]
    simpa [FileNode.children] using hch
  · cases f
    simp [FileNode.withNamePath, FileNode.name]
  · cases f
    simp [FileNode.withNamePath, FileNode.path]
  · cases f
    simp [FileNode.withNamePath, FileNode.id]
  · cases f
    simp [FileNode.withNamePath, FileNode.type]
  · cases f
    simp [FileNode.withNamePath, FileNode.content]
  · intro d hd
    exact not_under_new_path P (replaceLastSegment P nn) d (hwf d hd) hsep1 hsep2

/-- Witness for C3 at the spec's own scenario (§8): `rename(tree, "/src",
"lib")` where `/src` has child `/src/a.txt`; the renamed folder sits at
`/lib` and still holds the untouched child `/src/a.txt`. -/
theorem c3_witness :
    findNodeByPath (renameInTree "/src" "lib" [demoSrc])
        (replaceLastSegment "/src" "lib")
      = some (demoSrc.withNamePath "lib" (replaceLastSegment "/src" "lib")) :=
  (c3_rename_shallow [demoSrc] "/src" "lib" demoSrc [demoFile] (by decide)
    (by decide) (by decide) (by decide) (by decide) (by decide) (by decide)
    (by decide) (by decide)).1

end Playground


